import Mathlib

/-!
# Verification of the `notes.one` encrypted note store

Shallow embedding of the `EncryptedNotesDatabase` class from
`src/database-encrypted.js` (source file `src/unnamed/part_000`), together
with theorems settling the frozen claims about it.

Modelling conventions:

* Database rows become Lean structures; the two tables (`notes`,
  `note_versions`) become lists of rows inside a `DBState` record that also
  carries the in-memory fields of the class (`isInitialized`,
  `isEncryptionEnabled`, `encryptionKey`) and the persisted key file.
* A stored text field is a `Val`: either a plaintext string (`Val.plain`) or
  a ciphertext (`Val.enc inner key`), i.e. the result of
  `CryptoJS.AES.encrypt(inner, key)`.  AES is idealized symbolically: a
  ciphertext remembers the value it encrypts and the key used; decrypting
  with the right key recovers the value, decrypting with a wrong key (or
  decrypting a non-ciphertext) is a cryptographic failure, which the
  source's `decrypt` catches, returning its argument unchanged.
* `CryptoJS.PBKDF2(password, salt)` is idealized as the injective pairing
  `(password, salt)`: deterministic, and collision-free (the standard
  idealization of a key-derivation function).
* `crypto.randomBytes` salts are passed in as explicit parameters.
* Wall-clock columns (`created_at`, `updated_at`, the key file's
  `created`/`updated` stamps) are omitted: no claim mentions them.
  `timestamp` is kept (as a `Nat` ordering key) because reads sort by it.
* JavaScript truthiness on stored fields: the empty string is the only
  falsy stored value (fields are never `null` in this class: `addNote`
  inserts `note.source || ''`), captured by `valFalsy`.
-/

/-- A derived symmetric key.  `CryptoJS.PBKDF2(password, salt).toString()`
is idealized as the pair `(password, salt)`; equality of derived keys then
holds exactly when password and salt both match, the standard
collision-freeness idealization of PBKDF2. -/
abbrev Key := String × Nat

/-- PBKDF2 key derivation (`CryptoJS.PBKDF2(password, salt, {keySize: 256/32,
iterations: 10000}).toString()`), idealized as an injective pairing. -/
def pbkdf2 (password : String) (salt : Nat) : Key := (password, salt)

/-- A stored text value: plaintext, or the AES ciphertext of a value under a
key (`CryptoJS.AES.encrypt(data, key).toString()`).  Nested `enc` arises when
already-undecryptable data is encrypted again (password rotation re-encrypts
whatever `decrypt` returned). -/
inductive Val where
  | plain (s : String)
  | enc (data : Val) (key : Key)
deriving DecidableEq, Repr

/-- JavaScript falsiness of a stored field: the empty string is falsy; a
ciphertext is a nonempty base64 string, hence truthy. -/
def valFalsy : Val → Bool
  | .plain s => s == ""
  | .enc _ _ => false

/-- JavaScript `a || b` on stored fields (used as `note.source || ''`). -/
def jsOr (a b : Val) : Val := if valFalsy a then b else a

/-- Row of the `notes` table (wall-clock columns omitted, see module header). -/
structure Note where
  id : Nat
  content : Val
  source : Val
  url : Val
  timestamp : Nat
  version : Nat
  is_deleted : Bool
  is_sensitive : Bool
deriving DecidableEq, Repr

/-- Row of the `note_versions` table. -/
structure NoteVersion where
  id : Nat
  note_id : Nat
  content : Val
  source : Val
  url : Val
  version : Nat
  change_type : String
deriving DecidableEq, Repr

/-- Contents of the key file `encryption.key` (`{key, salt, created}`;
timestamps omitted). -/
structure KeyInfo where
  key : Key
  salt : Nat
deriving DecidableEq, Repr

/-- The state of an `EncryptedNotesDatabase` instance: its in-memory fields,
the key file, and the two tables.  `nextNoteId` / `nextVersionId` model the
SQLite `AUTOINCREMENT` counters of the two tables. -/
structure DBState where
  isInitialized : Bool
  isEncryptionEnabled : Bool
  encryptionKey : Option Key
  keyFile : Option KeyInfo
  notes : List Note
  note_versions : List NoteVersion
  nextNoteId : Nat
  nextVersionId : Nat
deriving Repr, DecidableEq

/-- `encrypt(data)`: returns `data` unchanged when encryption is disabled or
no key is loaded, otherwise the AES ciphertext under the active key. -/
def encrypt (st : DBState) (data : Val) : Val :=
  match st.encryptionKey with
  | none => data
  | some k => if st.isEncryptionEnabled then Val.enc data k else data

/-- `decrypt(encryptedData)`: returns the argument unchanged when encryption
is disabled, no key is loaded, or the argument is falsy.  Otherwise it
attempts AES decryption with the active key: decrypting a ciphertext made
with that key recovers the inner value; decrypting anything else fails
cryptographically, and the source's `catch` block returns the raw argument
unchanged. -/
def decrypt (st : DBState) (encryptedData : Val) : Val :=
  match st.encryptionKey with
  | none => encryptedData
  | some k =>
    if !st.isEncryptionEnabled || valFalsy encryptedData then encryptedData
    else
      match encryptedData with
      | .enc inner k' => if k' = k then inner else encryptedData
      | .plain _ => encryptedData

/-- The condition under which the AES decryption attempt inside `decrypt`
fails (wrong key, or the stored value is not a ciphertext at all): the
active-key branch is reached and the value is not a ciphertext under the
active key. -/
def decryptFails (st : DBState) (v : Val) : Bool :=
  match st.encryptionKey with
  | none => false
  | some k =>
    st.isEncryptionEnabled && !valFalsy v &&
      (match v with
       | .enc _ k' => decide (k' ≠ k)
       | .plain _ => true)

/-- Result of `initializeEncryption`. -/
inductive EncInit where
  | ok (isNewKey : Bool)
  | err (msg : String)
deriving DecidableEq, Repr

/-- `initializeEncryption(password)`: verify a password against the key file,
or create a new key file (with the supplied fresh salt) when none exists.
Mirrors the four branches of the source (key file present / absent ×
password provided / absent). -/
def initializeEncryption (st : DBState) (password : Option String)
    (freshSalt : Nat) : DBState × EncInit :=
  match st.keyFile with
  | some keyInfo =>
    match password with
    | some pw =>
      let testKey := pbkdf2 pw keyInfo.salt
      if testKey = keyInfo.key then
        ({ st with encryptionKey := some testKey, isEncryptionEnabled := true },
         .ok false)
      else
        (st, .err "Invalid password")
    | none => (st, .err "Password required for encrypted database")
  | none =>
    match password with
    | some pw =>
      let key := pbkdf2 pw freshSalt
      ({ st with keyFile := some { key := key, salt := freshSalt },
                 encryptionKey := some key, isEncryptionEnabled := true },
       .ok true)
    | none => ({ st with isEncryptionEnabled := false }, .ok false)

/-! ## Sorting by timestamp (`ORDER BY timestamp DESC`)

SQLite's `ORDER BY timestamp DESC` is modelled by insertion sort with the
`≤`-on-the-right comparator; ties keep first-seen order.  Both search paths
and `getNotes` use this same model, matching the identical `ORDER BY`
clauses in the source. -/

/-- Insert a note into a timestamp-descending list, before the first row of
smaller-or-equal timestamp. -/
def insertByTs (x : Note) : List Note → List Note
  | [] => [x]
  | y :: l => if y.timestamp ≤ x.timestamp then x :: y :: l else y :: insertByTs x l

/-- Sort notes by `timestamp` descending. -/
def sortByTsDesc : List Note → List Note
  | [] => []
  | x :: l => insertByTs x (sortByTsDesc l)

/-! ## String matching: JS `includes` and SQLite `LIKE` -/

/-- Whether `q` occurs at the start of `s` (exact character equality). -/
def leadsWith : List Char → List Char → Bool
  | [], _ => true
  | _ :: _, [] => false
  | a :: q, b :: s => a == b && leadsWith q s

/-- Whether `q` occurs as a contiguous substring of `s`: the semantics of
JavaScript `String.prototype.includes`. -/
def hasSub (q : List Char) : List Char → Bool
  | [] => q.isEmpty
  | b :: s => leadsWith q (b :: s) || hasSub q s

/-- SQLite `LIKE` matching (no `ESCAPE` clause): `%` matches any sequence
(i.e. the rest of the pattern matches some suffix of the text), `_` matches
any single character, other characters compare after ASCII lower-casing
(SQLite folds case for ASCII only, which is also all that Lean's
`Char.toLower` folds). -/
def likeMatch : List Char → List Char → Bool
  | [], s => s.isEmpty
  | c :: p', s =>
    if c = '%' then (s.tails).any (fun t => likeMatch p' t)
    else
      match s with
      | [] => false
      | d :: s' =>
        if c = '_' then likeMatch p' s'
        else (c.toLower == d.toLower) && likeMatch p' s'

/-- The SQL pattern `` `%${query}%` `` built by `searchNotes` and
`getSearchCount`. -/
def sqlLikePat (query : String) : List Char := '%' :: (query.data ++ ['%'])

/-- `LIKE` applied to a stored field.  A ciphertext is base64 of random
bytes; the model idealizes that such text never matches the pattern (this
branch is only reached on fields whose decryption failed, a situation no
claim's hypotheses allow). -/
def sqlLikeVal (pat : List Char) (v : Val) : Bool :=
  match v with
  | .plain s => likeMatch pat s.data
  | .enc _ _ => false

/-- JavaScript `String.prototype.toLowerCase`, i.e. Unicode Default Case
Conversion, given here on the Basic Latin and Latin-1 ranges: `A`–`Z` and
`À`–`Þ` (except `×`, U+00D7) each map 32 code points down.  Code points
above U+00FF are left unchanged by this model; every theorem below confines
the searched text to ASCII (where this function provably coincides with
SQLite's folding, see `jsToLower_ascii`) and the counterexample stays
within Latin-1, where the mapping shown here is exact.  Note this is wider
than `Char.toLower`, which folds ASCII only — that difference is precisely
SQLite-`LIKE`-vs-JavaScript, and `searchNotes`'s two paths diverge on it. -/
def jsToLower (c : Char) : Char :=
  if c.toNat ≥ 65 ∧ c.toNat ≤ 90 then Char.ofNat (c.toNat + 32)
  else if c.toNat ≥ 192 ∧ c.toNat ≤ 222 ∧ c.toNat ≠ 215 then
    Char.ofNat (c.toNat + 32)
  else c

/-- An ASCII character: the range on which JavaScript lower-casing and
SQLite's `LIKE` folding agree. -/
def asciiChar (c : Char) : Bool := c.toNat ≤ 127

/-- A plaintext stored field all of whose characters are ASCII. -/
def plainAscii : Val → Bool
  | .plain s => s.data.all asciiChar
  | .enc _ _ => false

/-- `value.toLowerCase().includes(needleLower)` on a stored field, with the
needle already lower-cased (the source lower-cases the query once); case
folding is JavaScript's (`jsToLower`).  The same ciphertext idealization as
`sqlLikeVal` applies. -/
def jsIncludesLower (v : Val) (needleLower : List Char) : Bool :=
  match v with
  | .plain s => hasSub needleLower (s.data.map jsToLower)
  | .enc _ _ => false

/-- The in-memory row filter of the encrypted search path:
`note.content.toLowerCase().includes(searchLower) || (note.source &&
note.source.toLowerCase().includes(searchLower))`. -/
def noteMatches (searchLower : List Char) (n : Note) : Bool :=
  jsIncludesLower n.content searchLower ||
    (!valFalsy n.source && jsIncludesLower n.source searchLower)

/-! ## Store operations -/

/-- Append a row to `note_versions` (the body of `addNoteVersion`, which is
a single `INSERT`). -/
def addVersionRow (st : DBState) (note_id : Nat) (content source url : Val)
    (version : Nat) (change_type : String) : DBState :=
  { st with
    note_versions := st.note_versions ++
      [{ id := st.nextVersionId, note_id := note_id, content := content,
         source := source, url := url, version := version,
         change_type := change_type }],
    nextVersionId := st.nextVersionId + 1 }

/-- Input to `addNote`.  The source coalesces missing source/url with
`note.source || ''` / `note.url || ''`; on strings that coalescing is the
identity, so inputs are modelled as plain strings (absent = `""`). -/
structure NoteInput where
  content : String
  source : String
  url : String
  timestamp : Nat

/-- `addNote(note)`: encrypt the three fields, `INSERT` the notes row with
`version = 1`, then insert the `create` history row.  The source wraps the
two inserts in no transaction, so the notes `INSERT` auto-commits on its
own; `versionInsertFault` injects a failure of the history `INSERT` (e.g.
disk I/O), after which the error is rethrown by `addNote`'s catch block but
the notes row is already persisted. -/
def addNote (st : DBState) (note : NoteInput) (versionInsertFault : Bool) :
    DBState × Except String Nat :=
  if !st.isInitialized then (st, .error "Database not initialized")
  else
    let encryptedContent := encrypt st (Val.plain note.content)
    let encryptedSource := encrypt st (Val.plain note.source)
    let encryptedUrl := encrypt st (Val.plain note.url)
    let noteId := st.nextNoteId
    let st1 := { st with
      notes := st.notes ++
        [{ id := noteId, content := encryptedContent, source := encryptedSource,
           url := encryptedUrl, timestamp := note.timestamp, version := 1,
           is_deleted := false, is_sensitive := false }],
      nextNoteId := noteId + 1 }
    if versionInsertFault then (st1, .error "version insert failed")
    else
      (addVersionRow st1 noteId encryptedContent encryptedSource encryptedUrl
        1 "create", .ok noteId)

/-- `updateNote(noteId, updatedContent)`: look up the non-deleted row
(`WHERE id = ? AND is_deleted = FALSE`; throws `Note not found` when
absent), encrypt the new content, bump `version`, and append an `update`
history row carrying the new content with the existing source/url. -/
def updateNote (st : DBState) (noteId : Nat) (updatedContent : String) :
    DBState × Except String Bool :=
  if !st.isInitialized then (st, .error "Database not initialized")
  else
    match st.notes.find? (fun n => n.id == noteId && !n.is_deleted) with
    | none => (st, .error "Note not found")
    | some currentNote =>
      let encryptedContent := encrypt st (Val.plain updatedContent)
      let newVersion := currentNote.version + 1
      let notes' := st.notes.map (fun n =>
        if n.id == noteId then
          { n with content := encryptedContent, version := newVersion }
        else n)
      (addVersionRow { st with notes := notes' } noteId encryptedContent
        currentNote.source currentNote.url newVersion "update", .ok true)

/-- `deleteNote(id)`: `UPDATE notes SET is_deleted = TRUE WHERE id = ?`.
SQLite counts every matched row as changed, even when `is_deleted` was
already `TRUE`, so `success` is simply row existence.  On success the row is
re-read (without a deleted filter) and a `delete` history row is appended
with `version = note.version + 1`; the notes row's `version` column itself
is not updated. -/
def deleteNote (st : DBState) (id : Nat) : DBState × Except String Bool :=
  if !st.isInitialized then (st, .error "Database not initialized")
  else
    let success := st.notes.any (fun n => n.id == id)
    if success then
      let notes' := st.notes.map (fun n =>
        if n.id == id then { n with is_deleted := true } else n)
      let st' := { st with notes := notes' }
      match notes'.find? (fun n => n.id == id) with
      | some note =>
        (addVersionRow st' id note.content note.source note.url
          (note.version + 1) "delete", .ok true)
      | none => (st', .ok true)
    else (st, .ok false)

/-- `restoreNoteVersion(noteId, version)`: fetch the history snapshot
(`Version not found` if absent — rethrown), read the current row's version
(no deleted filter; a missing row makes `currentNote.version` a JS
`TypeError`), overwrite content/source/url, bump `version` past the current
one, and append a `restore_v<version>` history row. -/
def restoreNoteVersion (st : DBState) (noteId version : Nat) :
    DBState × Except String Bool :=
  if !st.isInitialized then (st, .error "Database not initialized")
  else
    match st.note_versions.find? (fun v =>
        v.note_id == noteId && v.version == version) with
    | none => (st, .error "Version not found")
    | some versionData =>
      match st.notes.find? (fun n => n.id == noteId) with
      | none => (st, .error "TypeError: cannot read version of undefined")
      | some currentNote =>
        let newVersion := currentNote.version + 1
        let notes' := st.notes.map (fun n =>
          if n.id == noteId then
            { n with content := versionData.content,
                     source := versionData.source,
                     url := versionData.url, version := newVersion }
          else n)
        (addVersionRow { st with notes := notes' } noteId versionData.content
          versionData.source versionData.url newVersion
          ("restore_v" ++ toString version), .ok true)

/-- `getNotes(limit, offset)`: non-deleted rows ordered by timestamp
descending, windowed, and — when encryption is enabled — each field run
through `decrypt` (`this.decrypt(note.source || '')` for source/url). -/
def getNotes (st : DBState) (limit offset : Nat) : Except String (List Note) :=
  if !st.isInitialized then .error "Database not initialized"
  else
    let rows :=
      ((sortByTsDesc (st.notes.filter (fun n => !n.is_deleted))).drop
        offset).take limit
    if st.isEncryptionEnabled then
      .ok (rows.map (fun n =>
        { n with content := decrypt st n.content,
                 source := decrypt st (jsOr n.source (Val.plain "")),
                 url := decrypt st (jsOr n.url (Val.plain "")) }))
    else .ok rows

/-- `searchNotes(query, limit, offset)`.  Encrypted path: materialize
`getNotes(1000, 0)`, filter in memory on lower-cased decrypted
content/source, and window with `slice(offset, offset + limit)`.
Unencrypted path: SQL `LIKE '%query%'` on content or source over non-deleted
rows, ordered by timestamp descending, with `LIMIT ? OFFSET ?`. -/
def searchNotes (st : DBState) (query : String) (limit offset : Nat) :
    Except String (List Note) :=
  if !st.isInitialized then .error "Database not initialized"
  else if st.isEncryptionEnabled then
    match getNotes st 1000 0 with
    | .error e => .error e
    | .ok allNotes =>
      let searchLower := query.data.map jsToLower
      let filteredNotes := allNotes.filter (noteMatches searchLower)
      .ok ((filteredNotes.drop offset).take limit)
  else
    let pat := sqlLikePat query
    .ok (((sortByTsDesc (st.notes.filter (fun n =>
        (sqlLikeVal pat n.content || sqlLikeVal pat n.source) &&
          !n.is_deleted))).drop offset).take limit)

/-- `getSearchCount(query)`: encrypted path counts `searchNotes(query, 1000,
0)` (its catch block would return 0); unencrypted path is a SQL `COUNT` under
the same `LIKE` filter. -/
def getSearchCount (st : DBState) (query : String) : Except String Nat :=
  if !st.isInitialized then .error "Database not initialized"
  else if st.isEncryptionEnabled then
    match searchNotes st query 1000 0 with
    | .ok l => .ok l.length
    | .error _ => .ok 0
  else
    let pat := sqlLikePat query
    .ok ((st.notes.filter (fun n =>
      (sqlLikeVal pat n.content || sqlLikeVal pat n.source) &&
        !n.is_deleted)).length)

/-! ## Password rotation -/

/-- One iteration of the notes loop of `changeEncryptionPassword`: decrypt
each field with the current in-memory key, temporarily switch
`this.encryptionKey` to the new key, re-encrypt, and restore the old key. -/
def reencryptNote (st : DBState) (newKey : Key) (n : Note) : Note :=
  { n with
    content := encrypt { st with encryptionKey := some newKey }
      (decrypt st n.content),
    source := encrypt { st with encryptionKey := some newKey }
      (decrypt st n.source),
    url := encrypt { st with encryptionKey := some newKey }
      (decrypt st n.url) }

/-- `changeEncryptionPassword(oldPassword, newPassword)`.

The source verifies the old password against the key file, derives a new
key from a fresh random salt (`newSalt` here), and re-encrypts both tables
inside one `better-sqlite3` transaction, then rewrites the key file and the
in-memory key.

The versions loop, however, reads the variable `oldEncryptionKey`, which is
declared with `const` *inside the body of the notes loop* and is therefore
not in scope there.  Class bodies are strict-mode JavaScript, so as soon as
the versions loop finishes its first iteration's statements it throws
`ReferenceError: oldEncryptionKey is not defined` — after having already set
`this.encryptionKey = newKey`.  The transaction rolls back (no table write
persists, the key file is untouched) and the outer catch returns
`{success: false}`, but the in-memory key remains the *new* key.

Hence: with at least one `note_versions` row the call always fails in that
way; with zero history rows the loops complete, the transaction commits, the
key file is rewritten and the new key becomes active.  A row that fails to
decrypt does not abort anything: `decrypt` returns it unchanged and it is
simply re-encrypted under the new key. -/
def changeEncryptionPassword (st : DBState) (oldPassword newPassword : String)
    (newSalt : Nat) : DBState × Bool :=
  if !st.isEncryptionEnabled then (st, false)
  else
    match st.keyFile with
    | none => (st, false)
    | some keyInfo =>
      if pbkdf2 oldPassword keyInfo.salt ≠ keyInfo.key then (st, false)
      else
        let newKey := pbkdf2 newPassword newSalt
        if st.note_versions.isEmpty then
          ({ st with notes := st.notes.map (reencryptNote st newKey),
                     keyFile := some { key := newKey, salt := newSalt },
                     encryptionKey := some newKey }, true)
        else
          ({ st with encryptionKey := some newKey }, false)

/-! ## Operation sequences and reachability -/

/-- A store with both tables empty, as produced by `initialize` followed by
`createTables` on a fresh database file, under an arbitrary encryption
configuration. -/
def initState (enabled : Bool) (key : Option Key) (kf : Option KeyInfo) :
    DBState :=
  { isInitialized := true, isEncryptionEnabled := enabled,
    encryptionKey := key, keyFile := kf, notes := [], note_versions := [],
    nextNoteId := 1, nextVersionId := 1 }

/-- The mutating store operations a caller can issue. -/
inductive Op where
  | add (content source url : String) (timestamp : Nat)
  | update (noteId : Nat) (content : String)
  | del (noteId : Nat)
  | restore (noteId : Nat) (version : Nat)

/-- Apply one operation (no injected faults). -/
def applyOp (st : DBState) : Op → DBState
  | .add c s u t => (addNote st ⟨c, s, u, t⟩ false).1
  | .update i c => (updateNote st i c).1
  | .del i => (deleteNote st i).1
  | .restore i v => (restoreNoteVersion st i v).1

/-- Run a sequence of operations. -/
def runOps (st : DBState) (ops : List Op) : DBState := ops.foldl applyOp st

/-- States reachable from a fresh store by store operations. -/
def Reachable (st : DBState) : Prop :=
  ∃ enabled key kf ops, st = runOps (initState enabled key kf) ops

/-- The history rows of one note (`WHERE note_id = ?`). -/
def histOf (st : DBState) (id : Nat) : List NoteVersion :=
  st.note_versions.filter (fun v => v.note_id == id)

/-- Highest `version` value among history rows (0 when there are none). -/
def maxVer (l : List NoteVersion) : Nat :=
  l.foldr (fun v m => max v.version m) 0

/-- Internal invariant used to prove the versioning claim: AUTOINCREMENT ids
are below the counters, notes ids are pairwise distinct, and every
non-deleted note's `version` equals both the number and the maximum
`version` of its history rows. -/
def StoreInv (st : DBState) : Prop :=
  (∀ n ∈ st.notes, n.id < st.nextNoteId) ∧
  (∀ v ∈ st.note_versions, v.note_id < st.nextNoteId) ∧
  st.notes.Pairwise (fun a b => a.id ≠ b.id) ∧
  (∀ n ∈ st.notes, n.is_deleted = false →
    (histOf st n.id).length = n.version ∧ maxVer (histOf st n.id) = n.version)

/-! ## Small helpers for stating concrete counterexamples -/

/-- Length of an `ok` note-list result (0 for errors). -/
def okLength : Except String (List Note) → Nat
  | .ok l => l.length
  | .error _ => 0

/-- Content of the first note of an `ok` result. -/
def firstContent : Except String (List Note) → Option Val
  | .ok (n :: _) => some n.content
  | .ok [] => none
  | .error _ => none

/-- Whether an operation result is an error. -/
def isErr {α : Type} : Except String α → Bool
  | .error _ => true
  | .ok _ => false

/-- The decrypted 1000 newest non-deleted rows: exactly what the encrypted
search path materializes via `getNotes(1000, 0)`. -/
def decTop1000 (st : DBState) : List Note :=
  ((sortByTsDesc (st.notes.filter (fun n => !n.is_deleted))).take 1000).map
    (fun n =>
      { n with content := decrypt st n.content,
               source := decrypt st (jsOr n.source (Val.plain "")),
               url := decrypt st (jsOr n.url (Val.plain "")) })

/-! ## Proof-side string matchers

`leadsLower`/`subLower` restate `LIKE`'s character comparison in the shape
of the JS `includes` recursion; they are stepping stones between `likeMatch`
and `hasSub`. -/

/-- Case-folded prefix comparison (the shape a wildcard-free `LIKE` pattern
followed by `%` takes). -/
def leadsLower : List Char → List Char → Bool
  | [], _ => true
  | _ :: _, [] => false
  | a :: q, b :: s => (a.toLower == b.toLower) && leadsLower q s

/-- Case-folded substring test, recursing like `hasSub`. -/
def subLower (q : List Char) : List Char → Bool
  | [] => leadsLower q []
  | b :: s => leadsLower q (b :: s) || subLower q s

/-- Encrypt the three text fields of a row under key `k` (what the fields of
a note look like after being stored through `addNote` with encryption
enabled, relative to their plaintext counterparts). -/
def encryptNoteFields (k : Key) (n : Note) : Note :=
  { n with content := Val.enc n.content k, source := Val.enc n.source k,
           url := Val.enc n.url k }

/-- The encrypted twin of a store: same logical rows, fields encrypted under
`k`, encryption enabled with `k` active. -/
def encryptStore (ps : DBState) (k : Key) : DBState :=
  { ps with isEncryptionEnabled := true, encryptionKey := some k,
            notes := ps.notes.map (encryptNoteFields k) }

/-! ## Concrete example states (used by witnesses and counterexamples) -/

/-- Fresh unencrypted store. -/
def exPlain0 : DBState := initState false none none

/-- After `addNote({content: "Buy milk", source: "Safari", url:
"https://example.com", timestamp: 5})`. -/
def exPlain1 : DBState :=
  (addNote exPlain0 ⟨"Buy milk", "Safari", "https://example.com", 5⟩ false).1

/-- After additionally `deleteNote(1)`. -/
def exPlain2 : DBState := (deleteNote exPlain1 1).1

/-- A derived key for the password `"a"` with salt `0`. -/
def exKey : Key := pbkdf2 "a" 0

/-- An encrypted, unlocked store whose key file matches password `"a"`,
with both tables empty. -/
def exEnc0 : DBState := initState true (some exKey) (some { key := exKey, salt := 0 })

/-- A note whose fields are encrypted under `exKey`. -/
def exEncNote : Note :=
  { id := 1, content := Val.enc (Val.plain "Buy milk") exKey,
    source := Val.enc (Val.plain "Safari") exKey,
    url := Val.enc (Val.plain "") exKey, timestamp := 5, version := 1,
    is_deleted := false, is_sensitive := false }

/-- The `create` history row of `exEncNote`. -/
def exEncRow : NoteVersion :=
  { id := 1, note_id := 1, content := Val.enc (Val.plain "Buy milk") exKey,
    source := Val.enc (Val.plain "Safari") exKey,
    url := Val.enc (Val.plain "") exKey, version := 1, change_type := "create" }

/-- The encrypted store holding `exEncNote` together with its `create`
history row. -/
def exEncV : DBState :=
  { exEnc0 with
    notes := [exEncNote], note_versions := [exEncRow],
    nextNoteId := 2, nextVersionId := 2 }

/-- A ciphertext made under a key that is *not* the active `exKey`: stored
data that fails to decrypt (the spec's "corruption, wrong key" case). -/
def badVal : Val := Val.enc (Val.plain "x") (pbkdf2 "other" 5)

/-- A note whose content is undecryptable under the active key. -/
def exBadNote : Note :=
  { id := 1, content := badVal, source := Val.enc (Val.plain "Safari") exKey,
    url := Val.enc (Val.plain "") exKey, timestamp := 5, version := 1,
    is_deleted := false, is_sensitive := false }

/-- An encrypted store (unlocked with `exKey`, key file matching password
`"a"`) holding the undecryptable note and no history rows. -/
def exBad : DBState :=
  { exEnc0 with notes := [exBadNote], nextNoteId := 2 }

/-- A plaintext store holding one note whose content is `"axb"` — text that
the SQL pattern `%a_b%` matches but that does not contain the literal
substring `"a_b"`. -/
def exWild : DBState :=
  (addNote exPlain0 ⟨"axb", "Safari", "", 5⟩ false).1

/-- A plaintext store holding one note whose content is the Latin-1 string
`"\u00e4"`: text that the query `"\u00c4"` finds under JavaScript's Unicode
lower-casing but not under SQLite's ASCII-only `LIKE` folding. -/
def exUni : DBState :=
  (addNote exPlain0 ⟨"\u00e4", "Safari", "", 5⟩ false).1

/-- A plaintext store with one `"hello"` note (for the search-equivalence
witness). -/
def exHello : DBState :=
  (addNote exPlain0 ⟨"hello", "Safari", "", 5⟩ false).1

/-- An encrypted, unlocked store holding `exEncNote` and no history rows
(a pre-versioning note), whose key file matches password `"a"`. -/
def exEnc1 : DBState := { exEnc0 with notes := [exEncNote], nextNoteId := 2 }

/-! # Theorems -/

/-- **C8.** For every stored value, `decrypt` after `encrypt` under the same
store state is the identity — for the content, source and url fields alike,
since all three go through the same pair of functions — and when encryption
is disabled both `encrypt` and `decrypt` are each the identity function. -/
theorem decrypt_encrypt_roundtrip (st : DBState) (v : Val) :
    decrypt st (encrypt st v) = v ∧
    (st.isEncryptionEnabled = false → encrypt st v = v ∧ decrypt st v = v) := by
  constructor
  · unfold encrypt decrypt
    cases hk : st.encryptionKey with
    | none => simp
    | some k =>
      cases he : st.isEncryptionEnabled with
      | false => simp [he]
      | true => simp [he, valFalsy]
  · intro he
    unfold encrypt decrypt
    cases hk : st.encryptionKey with
    | none => simp
    | some k => simp [he]

/-- Witness for C8 at a concrete encrypted store and value. -/
theorem decrypt_encrypt_roundtrip_witness :
    decrypt { isInitialized := true, isEncryptionEnabled := true,
              encryptionKey := some (pbkdf2 "pw" 7),
              keyFile := some { key := pbkdf2 "pw" 7, salt := 7 },
              notes := [], note_versions := [],
              nextNoteId := 1, nextVersionId := 1 }
      (encrypt { isInitialized := true, isEncryptionEnabled := true,
                 encryptionKey := some (pbkdf2 "pw" 7),
                 keyFile := some { key := pbkdf2 "pw" 7, salt := 7 },
                 notes := [], note_versions := [],
                 nextNoteId := 1, nextVersionId := 1 }
        (Val.plain "Buy milk")) = Val.plain "Buy milk" :=
  (decrypt_encrypt_roundtrip _ (Val.plain "Buy milk")).1

/-! ## General list helpers -/

/-- A map that fixes every member of a list leaves the list unchanged. -/
theorem list_map_id_of_mem {α : Type} {f : α → α} :
    ∀ {l : List α}, (∀ a ∈ l, f a = a) → l.map f = l := by
  intro l h
  induction l with
  | nil => rfl
  | cons a t ih =>
    rw [List.map_cons, h a (List.mem_cons_self a t),
      ih (fun b hb => h b (List.mem_cons_of_mem a hb))]

/-- `find?` by id commutes with an id-preserving map. -/
theorem find?_map_of_id {f : Note → Note} (hf : ∀ m, (f m).id = m.id)
    (l : List Note) (i : Nat) :
    (l.map f).find? (fun m => m.id == i) =
      (l.find? (fun m => m.id == i)).map f := by
  induction l with
  | nil => rfl
  | cons a t ih =>
    rw [List.map_cons, List.find?_cons, List.find?_cons]
    by_cases h : (a.id == i) = true
    · rw [show ((f a).id == i) = true by rw [hf a]; exact h, h]
      rfl
    · rw [show ((f a).id == i) = false by rw [hf a]; exact Bool.of_not_eq_true h,
        Bool.of_not_eq_true h]
      exact ih

/-! ## C6: deleting an already-deleted note -/

/-- **C6 (amended).** Calling `deleteNote` on an id whose rows are all
already soft-deleted is *not* a no-op failure: because SQLite counts every
matched row of the `UPDATE` as changed even when `is_deleted` was already
`TRUE`, the call returns `true`, leaves the `notes` table unchanged, and
appends one more `delete` history row with `version = note.version + 1`.
Only a non-existent id yields `false`. -/
theorem deleteNote_on_deleted (st : DBState) (i : Nat) (n : Note)
    (hinit : st.isInitialized = true)
    (hfind : st.notes.find? (fun m => m.id == i) = some n)
    (hdel : ∀ m ∈ st.notes, m.id = i → m.is_deleted = true) :
    (deleteNote st i).2 = Except.ok true ∧
    (deleteNote st i).1.notes = st.notes ∧
    (deleteNote st i).1.note_versions = st.note_versions ++
      [{ id := st.nextVersionId, note_id := i, content := n.content,
         source := n.source, url := n.url, version := n.version + 1,
         change_type := "delete" }] := by
  have hmem : n ∈ st.notes := List.mem_of_find?_eq_some hfind
  have hpn := List.find?_some hfind
  have hany : st.notes.any (fun m => m.id == i) = true :=
    List.any_eq_true.mpr ⟨n, hmem, hpn⟩
  have hmap : st.notes.map
      (fun m => if m.id == i then { m with is_deleted := true } else m) =
      st.notes := by
    apply list_map_id_of_mem
    intro m hm
    by_cases h : (m.id == i) = true
    · have hd := hdel m hm (by simpa using h)
      cases m
      simp_all
    · simp [h]
  unfold deleteNote addVersionRow
  simp only [hinit, Bool.not_true, Bool.false_eq_true, if_false, hany, if_true,
    hmap, hfind]
  exact ⟨trivial, trivial, trivial⟩

/-- Witness for C6 at the concrete store `exPlain2`, whose only note (id 1)
is already soft-deleted. -/
theorem deleteNote_on_deleted_witness :
    (deleteNote exPlain2 1).2 = Except.ok true ∧
    (deleteNote exPlain2 1).1.notes = exPlain2.notes :=
  let h := deleteNote_on_deleted exPlain2 1
    { id := 1, content := Val.plain "Buy milk", source := Val.plain "Safari",
      url := Val.plain "https://example.com", timestamp := 5, version := 1,
      is_deleted := true, is_sensitive := false }
    (by decide) (by decide) (by decide)
  ⟨h.1, h.2.1⟩

/-- **C6 counterexample.** On the already-deleted note 1 of `exPlain2`,
`deleteNote` returns `true` (the claim says `false`) and grows
`note_versions` from 2 to 3 rows (the claim says both tables are left
unchanged). -/
theorem deleteNote_on_deleted_cex :
    (deleteNote exPlain2 1).2 = Except.ok true ∧
    (deleteNote exPlain2 1).1.note_versions.length = 3 ∧
    exPlain2.note_versions.length = 2 := by
  exact ⟨rfl, by decide, by decide⟩

/-! ## C7: addNote is not transactional -/

/-- **C7 (amended).** `addNote` performs exactly one insert into `notes`
(version 1, not deleted) and one into `note_versions` (`change_type`
"create", the same encrypted field values, version 1) — but *not* as a
single transaction: the source wraps the two `INSERT`s in no transaction, so
when the version-history insert fails the error is rethrown, yet the notes
row is already committed and remains observable without its `create`
history row. -/
theorem addNote_commits_note_row (st : DBState) (note : NoteInput)
    (hinit : st.isInitialized = true) :
    (addNote st note false).1.notes = st.notes ++
      [{ id := st.nextNoteId, content := encrypt st (Val.plain note.content),
         source := encrypt st (Val.plain note.source),
         url := encrypt st (Val.plain note.url), timestamp := note.timestamp,
         version := 1, is_deleted := false, is_sensitive := false }] ∧
    (addNote st note false).1.note_versions = st.note_versions ++
      [{ id := st.nextVersionId, note_id := st.nextNoteId,
         content := encrypt st (Val.plain note.content),
         source := encrypt st (Val.plain note.source),
         url := encrypt st (Val.plain note.url), version := 1,
         change_type := "create" }] ∧
    (addNote st note false).2 = Except.ok st.nextNoteId ∧
    (addNote st note true).1.notes = (addNote st note false).1.notes ∧
    (addNote st note true).1.note_versions = st.note_versions ∧
    isErr (addNote st note true).2 = true := by
  unfold addNote addVersionRow isErr
  simp [hinit]

/-- Witness for C7: the fault branch at a concrete store and input. -/
theorem addNote_commits_note_row_witness :
    isErr (addNote exPlain0 ⟨"a", "s", "u", 0⟩ true).2 = true :=
  (addNote_commits_note_row exPlain0 ⟨"a", "s", "u", 0⟩ rfl).2.2.2.2.2

/-- **C7 counterexample.** When the version-history insert fails, `addNote`
reports the failure, yet the notes row is persisted (1 row) with no history
row at all — contradicting "the notes insert is not independently
committed". -/
theorem addNote_commits_note_row_cex :
    isErr (addNote exPlain0 ⟨"a", "s", "u", 0⟩ true).2 = true ∧
    (addNote exPlain0 ⟨"a", "s", "u", 0⟩ true).1.notes.length = 1 ∧
    (addNote exPlain0 ⟨"a", "s", "u", 0⟩ true).1.note_versions.length = 0 := by
  decide

/-! ## C3: rotation atomicity -/

/-- **C3 (amended).** Whenever `changeEncryptionPassword` returns failure —
encryption disabled, missing key file, wrong old password, or the
`ReferenceError` that the out-of-scope `oldEncryptionKey` raises inside the
re-encryption transaction (which then rolls back) — no persisted state
changes: the `notes` rows, the `note_versions` rows and the key file are all
left exactly as they were.  (What the claim additionally asserts — that a
row failing to *decrypt* aborts the rotation — is false; see the
counterexample.) -/
theorem rotation_failure_frame (st : DBState) (oldPw newPw : String)
    (newSalt : Nat)
    (hfail : (changeEncryptionPassword st oldPw newPw newSalt).2 = false) :
    (changeEncryptionPassword st oldPw newPw newSalt).1.notes = st.notes ∧
    (changeEncryptionPassword st oldPw newPw newSalt).1.note_versions =
      st.note_versions ∧
    (changeEncryptionPassword st oldPw newPw newSalt).1.keyFile = st.keyFile := by
  cases hse : st.isEncryptionEnabled with
  | false => simp [changeEncryptionPassword, hse]
  | true =>
    cases hkf : st.keyFile with
    | none => simp [changeEncryptionPassword, hse, hkf]
    | some ki =>
      by_cases hk : pbkdf2 oldPw ki.salt ≠ ki.key
      · simp [changeEncryptionPassword, hse, hkf, hk]
      · by_cases hv : st.note_versions.isEmpty
        · exfalso
          unfold changeEncryptionPassword at hfail
          simp [hse, hkf, hk, hv] at hfail
        · simp [changeEncryptionPassword, hse, hkf, hk, hv]

/-- Witness for C3: the failing rotation on `exEncV` (one history row, so
the versions loop raises) leaves the notes table as it was. -/
theorem rotation_failure_frame_witness :
    (changeEncryptionPassword exEncV "a" "b" 1).1.notes = exEncV.notes :=
  (rotation_failure_frame exEncV "a" "b" 1 (by decide)).1

/-- **C3 counterexample.** In `exBad` the stored content fails to decrypt
under the active key, yet rotation does not abort: it succeeds, rewrites the
row (re-encrypting the undecryptable blob under the new key) and replaces
the key file — contradicting "if any row fails to decrypt … no partial
writes are persisted … and the key file still holds the old salt and key
fingerprint". -/
theorem rotation_ignores_decrypt_failure_cex :
    decryptFails exBad exBadNote.content = true ∧
    (changeEncryptionPassword exBad "a" "c" 1).2 = true ∧
    (changeEncryptionPassword exBad "a" "c" 1).1.keyFile =
      some { key := pbkdf2 "c" 1, salt := 1 } ∧
    exBad.keyFile = some { key := exKey, salt := 0 } ∧
    (changeEncryptionPassword exBad "a" "c" 1).1.notes ≠ exBad.notes := by
  decide

/-! ## C1: rotation correctness on success -/

/-- **C1 (amended).** For an unlocked encryption-enabled store whose
in-memory key matches the key file, if `changeEncryptionPassword(old, new)`
returns success then every notes row and every `note_versions` row of the
new state decrypts (under the now-active new key) to exactly what its
pre-rotation counterpart decrypted to under the old key; and — *provided
`old ≠ new`* — a subsequent unlock attempt with the old password fails with
`Invalid password`.  (The proviso is forced: rotating to the same password
succeeds and the old password then still unlocks, see the
counterexample.) -/
theorem rotation_success_correct (st : DBState) (oldPw newPw : String)
    (newSalt : Nat) (ki : KeyInfo) (st' : DBState)
    (henc : st.isEncryptionEnabled = true)
    (hkf : st.keyFile = some ki)
    (_hkey : st.encryptionKey = some ki.key)
    (hold : pbkdf2 oldPw ki.salt = ki.key)
    (hne : oldPw ≠ newPw)
    (hrun : changeEncryptionPassword st oldPw newPw newSalt = (st', true)) :
    List.Forall₂ (fun n n' =>
      Note.id n' = Note.id n ∧
      decrypt st' (Note.content n') = decrypt st (Note.content n) ∧
      decrypt st' (Note.source n') = decrypt st (Note.source n) ∧
      decrypt st' (Note.url n') = decrypt st (Note.url n)) st.notes st'.notes ∧
    List.Forall₂ (fun v v' =>
      NoteVersion.id v' = NoteVersion.id v ∧
      decrypt st' (NoteVersion.content v') = decrypt st (NoteVersion.content v))
      st.note_versions st'.note_versions ∧
    ∀ salt2, (initializeEncryption st' (some oldPw) salt2).2 =
      EncInit.err "Invalid password" := by
  unfold changeEncryptionPassword at hrun
  by_cases hv : st.note_versions.isEmpty
  · simp only [henc, hkf, hold, hv, Bool.not_true, Bool.false_eq_true,
      if_false, ne_eq, not_true_eq_false, if_true, Prod.mk.injEq, and_true] at hrun
    have hnil : st.note_versions = [] := List.isEmpty_iff.mp hv
    subst hrun
    refine ⟨?_, ?_, ?_⟩
    · rw [List.forall₂_map_right_iff, List.forall₂_same]
      intro n _
      refine ⟨rfl, ?_, ?_, ?_⟩ <;>
        simp [reencryptNote, encrypt, decrypt, henc, valFalsy]
    · simp only [hnil]
      exact List.Forall₂.nil
    · intro salt2
      have hpk : pbkdf2 oldPw newSalt ≠ pbkdf2 newPw newSalt := by
        simp [pbkdf2, hne]
      simp [initializeEncryption, hpk]
  · simp only [henc, hkf, hold, hv, Bool.not_true, Bool.false_eq_true,
      if_false, ne_eq, not_true_eq_false, if_true, Prod.mk.injEq] at hrun
    exact absurd hrun.2 (by simp)

/-- Witness for C1 at the concrete store `exEnc1`, rotating `"a"` to `"b"`:
afterwards the old password no longer unlocks. -/
theorem rotation_success_correct_witness :
    (initializeEncryption (changeEncryptionPassword exEnc1 "a" "b" 1).1
      (some "a") 99).2 = EncInit.err "Invalid password" :=
  (rotation_success_correct exEnc1 "a" "b" 1 { key := exKey, salt := 0 }
    (changeEncryptionPassword exEnc1 "a" "b" 1).1 rfl rfl rfl rfl
    (by decide) (by decide)).2.2 99

/-- **C1 counterexample.** The claim quantifies over *every* password pair
`(old, new)` with `old` matching the stored fingerprint; for `old = new =
"a"` the rotation succeeds, yet the subsequent unlock attempt with the old
password also succeeds instead of failing with `Invalid password`. -/
theorem rotation_same_password_cex :
    (changeEncryptionPassword exEnc0 "a" "a" 1).2 = true ∧
    (initializeEncryption (changeEncryptionPassword exEnc0 "a" "a" 1).1
      (some "a") 99).2 = EncInit.ok false := by
  decide

/-! ## Sorting helpers -/

/-- Insertion preserves length. -/
theorem length_insertByTs (x : Note) (l : List Note) :
    (insertByTs x l).length = l.length + 1 := by
  induction l with
  | nil => rfl
  | cons y t ih =>
    unfold insertByTs
    by_cases h : y.timestamp ≤ x.timestamp
    · simp [h]
    · simp [h, ih]

/-- Sorting preserves length. -/
theorem length_sortByTsDesc (l : List Note) :
    (sortByTsDesc l).length = l.length := by
  induction l with
  | nil => rfl
  | cons x t ih => simp [sortByTsDesc, length_insertByTs, ih]

/-- Membership in an insertion. -/
theorem mem_insertByTs {a x : Note} {l : List Note} :
    a ∈ insertByTs x l ↔ a = x ∨ a ∈ l := by
  induction l with
  | nil => simp [insertByTs]
  | cons y t ih =>
    unfold insertByTs
    by_cases h : y.timestamp ≤ x.timestamp
    · simp [h]
    · simp [h, ih]
      tauto

/-- Sorting preserves membership. -/
theorem mem_sortByTsDesc {a : Note} {l : List Note} :
    a ∈ sortByTsDesc l ↔ a ∈ l := by
  induction l with
  | nil => simp [sortByTsDesc]
  | cons x t ih => simp [sortByTsDesc, mem_insertByTs, ih]

/-! ## C5: decryption failure behaviour -/

/-- When the AES decryption attempt fails, `decrypt` returns its argument
unchanged (the catch block). -/
theorem decrypt_of_fails (st : DBState) (v : Val)
    (h : decryptFails st v = true) : decrypt st v = v := by
  unfold decryptFails at h
  unfold decrypt
  cases hk : st.encryptionKey with
  | none => rfl
  | some k =>
    rw [hk] at h
    simp only [Bool.and_eq_true, Bool.not_eq_true'] at h
    obtain ⟨⟨he, hnf⟩, hm⟩ := h
    rw [he, hnf]
    simp only [Bool.not_true, Bool.false_or, Bool.false_eq_true, if_false]
    cases v with
    | plain s => rfl
    | enc d k' =>
      simp only [decide_eq_true_eq] at hm
      simp [hm]

/-- **C5 (amended).** A stored content that is unreadable under the active
key does *not* produce a `DecryptionError`: `decrypt` catches the failure
and returns the raw value unchanged, and `getNotes` succeeds, returning the
undecryptable ciphertext as if it were the note's content — no failure is
visible to the caller. -/
theorem decrypt_failure_surfaces_raw (st : DBState) (n : Note)
    (hinit : st.isInitialized = true)
    (henc : st.isEncryptionEnabled = true)
    (hmem : n ∈ st.notes) (hnd : n.is_deleted = false)
    (hfail : decryptFails st n.content = true) :
    decrypt st n.content = n.content ∧
    ∃ notes, getNotes st st.notes.length 0 = Except.ok notes ∧
      ∃ m ∈ notes, m.id = n.id ∧ m.content = n.content := by
  have hdec := decrypt_of_fails st n.content hfail
  refine ⟨hdec, ?_⟩
  unfold getNotes
  simp only [hinit, Bool.not_true, Bool.false_eq_true, if_false, henc,
    if_true, List.drop_zero]
  have hfilter : n ∈ st.notes.filter (fun m => !m.is_deleted) :=
    List.mem_filter.mpr ⟨hmem, by simp [hnd]⟩
  have hsort : n ∈ sortByTsDesc (st.notes.filter (fun m => !m.is_deleted)) :=
    mem_sortByTsDesc.mpr hfilter
  have hlen : (sortByTsDesc (st.notes.filter (fun m => !m.is_deleted))).length ≤
      st.notes.length := by
    rw [length_sortByTsDesc]
    exact List.length_filter_le _ _
  rw [List.take_of_length_le hlen]
  exact ⟨_, rfl, _, List.mem_map_of_mem _ hsort, rfl, hdec⟩

/-- Witness for C5 at the concrete store `exBad`. -/
theorem decrypt_failure_surfaces_raw_witness :
    decrypt exBad exBadNote.content = exBadNote.content :=
  (decrypt_failure_surfaces_raw exBad exBadNote rfl rfl (by decide) rfl
    (by decide)).1

/-- **C5 counterexample.** In `exBad` the stored content fails to decrypt,
yet `getNotes` neither raises nor propagates any `DecryptionError`: it
returns success, with the raw ciphertext in place of the content. -/
theorem getNotes_returns_raw_cex :
    decryptFails exBad exBadNote.content = true ∧
    isErr (getNotes exBad 50 0) = false ∧
    firstContent (getNotes exBad 50 0) = some badVal := by
  decide

/-! ## C10: restore works on soft-deleted notes -/

/-- **C10.** `restoreNoteVersion` does not require the target note to be
non-deleted: on a soft-deleted note with a matching history row it returns
`true`, overwrites content/source/url from the snapshot, bumps the version
counter past the current one, appends a `restore_v<v>` history row — while
`is_deleted` remains `true`, so the restored note stays excluded from every
`getNotes` read. -/
theorem restore_on_deleted_note (st : DBState) (noteId v : Nat)
    (n : Note) (vrow : NoteVersion)
    (hinit : st.isInitialized = true)
    (hvrow : st.note_versions.find?
      (fun w => w.note_id == noteId && w.version == v) = some vrow)
    (hfind : st.notes.find? (fun m => m.id == noteId) = some n)
    (hdel : ∀ m ∈ st.notes, m.id = noteId → m.is_deleted = true) :
    (restoreNoteVersion st noteId v).2 = Except.ok true ∧
    (restoreNoteVersion st noteId v).1.notes.find? (fun m => m.id == noteId) =
      some { n with content := vrow.content, source := vrow.source,
                    url := vrow.url, version := n.version + 1 } ∧
    n.is_deleted = true ∧
    (restoreNoteVersion st noteId v).1.note_versions = st.note_versions ++
      [{ id := st.nextVersionId, note_id := noteId, content := vrow.content,
         source := vrow.source, url := vrow.url, version := n.version + 1,
         change_type := "restore_v" ++ toString v }] ∧
    (∀ limit offset notes,
      getNotes (restoreNoteVersion st noteId v).1 limit offset =
        Except.ok notes →
      ∀ m ∈ notes, m.id ≠ noteId) := by
  have hmemn : n ∈ st.notes := List.mem_of_find?_eq_some hfind
  have hpn := List.find?_some hfind
  have hdeln : n.is_deleted = true := hdel n hmemn (by simpa using hpn)
  have hres2 : (restoreNoteVersion st noteId v).2 = Except.ok true := by
    unfold restoreNoteVersion
    simp only [hinit, Bool.not_true, Bool.false_eq_true, if_false, hvrow, hfind]
  have hnotes2 : (restoreNoteVersion st noteId v).1.notes = st.notes.map
      (fun m => if m.id == noteId then
        { m with content := vrow.content, source := vrow.source,
                 url := vrow.url, version := n.version + 1 }
      else m) := by
    unfold restoreNoteVersion addVersionRow
    simp only [hinit, Bool.not_true, Bool.false_eq_true, if_false, hvrow, hfind]
  have hvers2 : (restoreNoteVersion st noteId v).1.note_versions =
      st.note_versions ++
      [{ id := st.nextVersionId, note_id := noteId, content := vrow.content,
         source := vrow.source, url := vrow.url, version := n.version + 1,
         change_type := "restore_v" ++ toString v }] := by
    unfold restoreNoteVersion addVersionRow
    simp only [hinit, Bool.not_true, Bool.false_eq_true, if_false, hvrow, hfind]
  have hinit2 : (restoreNoteVersion st noteId v).1.isInitialized = true := by
    unfold restoreNoteVersion addVersionRow
    simp only [hinit, Bool.not_true, Bool.false_eq_true, if_false, hvrow,
      hfind]
    try rfl
    try exact hinit
  have hidpres : ∀ m : Note,
      (Note.id (if m.id == noteId then
        { m with content := vrow.content, source := vrow.source,
                 url := vrow.url, version := n.version + 1 }
      else m)) = m.id := by
    intro m
    by_cases h : (m.id == noteId) = true
    · simp [h]
    · simp [h]
  refine ⟨hres2, ?_, hdeln, hvers2, ?_⟩
  · rw [hnotes2, find?_map_of_id hidpres st.notes noteId, hfind]
    simp [hpn]
    intro h
    exact absurd (by simpa using hpn) h
  · intro limit offset notes hget m hm
    have hkeep : ∀ x ∈ sortByTsDesc
        (((restoreNoteVersion st noteId v).1.notes).filter
          (fun a => !a.is_deleted)), x.id ≠ noteId := by
      intro x hx
      obtain ⟨hxm, hxd⟩ := List.mem_filter.mp (mem_sortByTsDesc.mp hx)
      rw [hnotes2] at hxm
      obtain ⟨o, ho, rfl⟩ := List.mem_map.mp hxm
      by_cases h : (o.id == noteId) = true
      · exfalso
        have hod : o.is_deleted = true := hdel o ho (by simpa using h)
        rw [if_pos h] at hxd
        simp [hod] at hxd
      · rw [if_neg (by simpa using h)]
        simpa using h
    unfold getNotes at hget
    rw [hinit2] at hget
    simp only [Bool.not_true, Bool.false_eq_true, if_false] at hget
    by_cases henc2 :
        ((restoreNoteVersion st noteId v).1.isEncryptionEnabled) = true
    · rw [if_pos henc2] at hget
      injection hget with hlist
      subst hlist
      obtain ⟨x, hxmem, rfl⟩ := List.mem_map.mp hm
      have hxS : x ∈ sortByTsDesc
          (((restoreNoteVersion st noteId v).1.notes).filter
            (fun a => !a.is_deleted)) :=
        List.drop_subset _ _ (List.take_subset _ _ hxmem)
      simpa using hkeep x hxS
    · rw [if_neg henc2] at hget
      injection hget with hlist
      subst hlist
      have hxS : m ∈ sortByTsDesc
          (((restoreNoteVersion st noteId v).1.notes).filter
            (fun a => !a.is_deleted)) :=
        List.drop_subset _ _ (List.take_subset _ _ hm)
      exact hkeep m hxS

/-- Witness for C10 at `exPlain2`: restoring the soft-deleted note 1 to
version 1 succeeds. -/
theorem restore_on_deleted_note_witness :
    (restoreNoteVersion exPlain2 1 1).2 = Except.ok true :=
  (restore_on_deleted_note exPlain2 1 1
    { id := 1, content := Val.plain "Buy milk", source := Val.plain "Safari",
      url := Val.plain "https://example.com", timestamp := 5, version := 1,
      is_deleted := true, is_sensitive := false }
    { id := 1, note_id := 1, content := Val.plain "Buy milk",
      source := Val.plain "Safari", url := Val.plain "https://example.com",
      version := 1, change_type := "create" }
    (by decide) (by decide) (by decide) (by decide)).1

/-! ## LIKE vs includes -/

/-- `any` respects pointwise-equal predicates. -/
theorem list_any_congr {α : Type} {p q : α → Bool} :
    ∀ {l : List α}, (∀ a ∈ l, p a = q a) → l.any p = l.any q := by
  intro l h
  induction l with
  | nil => rfl
  | cons a t ih =>
    simp only [List.any_cons]
    rw [h a (List.mem_cons_self a t), ih (fun b hb => h b (List.mem_cons_of_mem a hb))]

/-- A bare `%` pattern matches every string. -/
theorem likeMatch_pct (s : List Char) : likeMatch ['%'] s = true := by
  have hunfold : ∀ t : List Char, likeMatch ['%'] t =
      t.tails.any (fun u => likeMatch [] u) := by
    intro t
    rfl
  induction s with
  | nil => rw [hunfold]; rfl
  | cons b t ih =>
    rw [hunfold, List.tails_cons, List.any_cons, ← hunfold t, ih]
    simp

/-- A wildcard-free pattern followed by `%` performs a case-folded prefix
comparison. -/
theorem likeMatch_wildfree_pct (q : List Char)
    (hq : ∀ c ∈ q, c ≠ '%' ∧ c ≠ '_') :
    ∀ s : List Char, likeMatch (q ++ ['%']) s = leadsLower q s := by
  induction q with
  | nil => intro s; rw [List.nil_append]; rw [likeMatch_pct]; rfl
  | cons c q' ih =>
    intro s
    have hc := hq c (List.mem_cons_self c q')
    rw [List.cons_append]
    show likeMatch (c :: (q' ++ ['%'])) s = leadsLower (c :: q') s
    unfold likeMatch
    rw [if_neg hc.1]
    cases s with
    | nil => rfl
    | cons d s' =>
      show (if c = '_' then likeMatch (q' ++ ['%']) s'
        else (c.toLower == d.toLower) && likeMatch (q' ++ ['%']) s') =
        leadsLower (c :: q') (d :: s')
      rw [if_neg hc.2]
      rw [ih (fun e he => hq e (List.mem_cons_of_mem c he)) s']
      rfl

/-- The full `%q%` pattern of the source performs a case-folded substring
test. -/
theorem likeMatch_pat_eq_subLower (q : String)
    (hq : ∀ c ∈ q.data, c ≠ '%' ∧ c ≠ '_') (s : List Char) :
    likeMatch (sqlLikePat q) s = subLower q.data s := by
  unfold sqlLikePat
  show likeMatch ('%' :: (q.data ++ ['%'])) s = subLower q.data s
  have hstep : ∀ t : List Char,
      likeMatch ('%' :: (q.data ++ ['%'])) t =
        t.tails.any (fun u => leadsLower q.data u) := by
    intro t
    conv => lhs; unfold likeMatch
    rw [if_pos rfl]
    exact list_any_congr (fun u _ => likeMatch_wildfree_pct q.data hq u)
  induction s with
  | nil =>
    rw [hstep []]
    show ((([] : List Char) :: []).any fun u => leadsLower q.data u) =
      subLower q.data []
    simp [subLower]
  | cons b s' ih =>
    rw [hstep (b :: s')]
    rw [List.tails_cons, List.any_cons]
    rw [← hstep s', ih]
    rfl

/-- `leadsLower` is `leadsWith` on the lower-cased strings. -/
theorem leadsLower_eq (q : List Char) :
    ∀ s : List Char, leadsLower q s =
      leadsWith (q.map Char.toLower) (s.map Char.toLower) := by
  induction q with
  | nil => intro s; cases s <;> rfl
  | cons a q' ih =>
    intro s
    cases s with
    | nil => rfl
    | cons b s' =>
      show ((a.toLower == b.toLower) && leadsLower q' s') = _
      rw [ih s']
      rfl

/-- `subLower` is `hasSub` on the lower-cased strings. -/
theorem subLower_eq (q : List Char) :
    ∀ s : List Char, subLower q s =
      hasSub (q.map Char.toLower) (s.map Char.toLower) := by
  intro s
  induction s with
  | nil =>
    show leadsLower q [] = (q.map Char.toLower).isEmpty
    cases q <;> rfl
  | cons b s' ih =>
    show (leadsLower q (b :: s') || subLower q s') = _
    rw [leadsLower_eq q (b :: s'), ih]
    rfl

/-- `hasSub` with an empty needle always succeeds. -/
theorem hasSub_nil (hay : List Char) : hasSub [] hay = true := by
  cases hay <;> rfl

/-- `Char.toLower` without its `let`. -/
theorem charToLower_eq (c : Char) :
    Char.toLower c =
      if c.toNat ≥ 65 ∧ c.toNat ≤ 90 then Char.ofNat (c.toNat + 32)
      else c := rfl

/-- On ASCII characters, JavaScript lower-casing coincides with the folding
SQLite's `LIKE` performs. -/
theorem jsToLower_ascii (c : Char) (h : asciiChar c = true) :
    jsToLower c = Char.toLower c := by
  have h127 : c.toNat ≤ 127 := by
    unfold asciiChar at h
    exact of_decide_eq_true h
  rw [charToLower_eq]
  unfold jsToLower
  by_cases h1 : c.toNat ≥ 65 ∧ c.toNat ≤ 90
  · rw [if_pos h1, if_pos h1]
  · rw [if_neg h1, if_neg h1, if_neg (by omega)]

/-- The two foldings coincide on ASCII strings. -/
theorem map_jsToLower_ascii (l : List Char) (h : l.all asciiChar = true) :
    l.map jsToLower = l.map Char.toLower :=
  List.map_congr_left (fun a ha =>
    jsToLower_ascii a (List.all_eq_true.mp h a ha))

/-- Row-level agreement: on a note with plaintext ASCII content and source,
the in-memory filter of the encrypted search path coincides with the SQL
`LIKE` filter, for wildcard-free ASCII queries. -/
theorem row_match_eq (q : String) (hq : ∀ c ∈ q.data, c ≠ '%' ∧ c ≠ '_')
    (hqa : q.data.all asciiChar = true)
    (n : Note) (c s : String)
    (hc : n.content = Val.plain c) (hs : n.source = Val.plain s)
    (hca : c.data.all asciiChar = true) (hsa : s.data.all asciiChar = true) :
    noteMatches (q.data.map jsToLower) n =
      (sqlLikeVal (sqlLikePat q) n.content ||
        sqlLikeVal (sqlLikePat q) n.source) := by
  have hlike : ∀ t : String, sqlLikeVal (sqlLikePat q) (Val.plain t) =
      hasSub (q.data.map Char.toLower) (t.data.map Char.toLower) := by
    intro t
    show likeMatch (sqlLikePat q) t.data = _
    rw [likeMatch_pat_eq_subLower q hq, subLower_eq]
  rw [hc, hs]
  unfold noteMatches
  rw [hc, hs]
  show (jsIncludesLower (Val.plain c) (q.data.map jsToLower) ||
      (!valFalsy (Val.plain s) && jsIncludesLower (Val.plain s)
        (q.data.map jsToLower))) = _
  rw [hlike c, hlike s]
  show (hasSub (q.data.map jsToLower) (c.data.map jsToLower) ||
      (!(s == "") && hasSub (q.data.map jsToLower)
        (s.data.map jsToLower))) = _
  rw [map_jsToLower_ascii q.data hqa, map_jsToLower_ascii c.data hca,
    map_jsToLower_ascii s.data hsa]
  by_cases hse : s = ""
  · subst hse
    by_cases hqe : q.data = []
    · rw [hqe]
      simp [hasSub_nil]
    · have h1 : hasSub (List.map Char.toLower q.data)
          (List.map Char.toLower ("" : String).data) = false := by
        cases hql : q.data with
        | nil => exact absurd hql hqe
        | cons a t => rfl
      rw [show (("" : String) == "") = true from rfl, h1]
      simp
  · have : (s == "") = false := by
      simp [hse]
    rw [this]
    simp

/-! ## Sort commutation lemmas -/

/-- Timestamp-descending sortedness. -/
def SortedTs (l : List Note) : Prop :=
  List.Pairwise (fun a b => b.timestamp ≤ a.timestamp) l

/-- Inserting an element at least as new as the whole list puts it in front. -/
theorem insertByTs_front {x : Note} {l : List Note}
    (h : ∀ z ∈ l, z.timestamp ≤ x.timestamp) : insertByTs x l = x :: l := by
  cases l with
  | nil => rfl
  | cons y t =>
    unfold insertByTs
    rw [if_pos (h y (List.mem_cons_self y t))]

/-- Insertion preserves sortedness. -/
theorem sortedTs_insertByTs {x : Note} {l : List Note} (hl : SortedTs l) :
    SortedTs (insertByTs x l) := by
  induction l with
  | nil => exact List.pairwise_singleton _ x
  | cons y t ih =>
    unfold insertByTs
    obtain ⟨hy, ht⟩ := List.pairwise_cons.mp hl
    by_cases h : y.timestamp ≤ x.timestamp
    · rw [if_pos h]
      refine List.pairwise_cons.mpr ⟨?_, hl⟩
      intro z hz
      rcases List.mem_cons.mp hz with rfl | hz'
      · exact h
      · exact le_trans (hy z hz') h
    · rw [if_neg h]
      refine List.pairwise_cons.mpr ⟨?_, ih ht⟩
      intro z hz
      rcases mem_insertByTs.mp hz with rfl | hz'
      · exact le_of_not_le h
      · exact hy z hz'

/-- The sort produces a sorted list. -/
theorem sortedTs_sortByTsDesc (l : List Note) : SortedTs (sortByTsDesc l) := by
  induction l with
  | nil => exact List.Pairwise.nil
  | cons x t ih => exact sortedTs_insertByTs ih

/-- Unfolding `insertByTs` when the head is older. -/
theorem insertByTs_cons_of_le {x y : Note} (h : y.timestamp ≤ x.timestamp)
    (l : List Note) : insertByTs x (y :: l) = x :: y :: l := by
  unfold insertByTs
  rw [if_pos h]

/-- Unfolding `insertByTs` when the head is newer. -/
theorem insertByTs_cons_of_gt {x y : Note} (h : ¬y.timestamp ≤ x.timestamp)
    (l : List Note) : insertByTs x (y :: l) = y :: insertByTs x l := by
  conv => lhs; unfold insertByTs
  rw [if_neg h]

/-- On a sorted list, `filter` commutes with insertion. -/
theorem filter_insertByTs (p : Note → Bool) {x : Note} {l : List Note}
    (hl : SortedTs l) :
    (insertByTs x l).filter p =
      if p x then insertByTs x (l.filter p) else l.filter p := by
  induction l with
  | nil =>
    by_cases h : p x
    · simp [insertByTs, List.filter_cons, h]
    · simp [insertByTs, List.filter_cons, h]
  | cons y t ih =>
    obtain ⟨hy, ht⟩ := List.pairwise_cons.mp hl
    by_cases hxy : y.timestamp ≤ x.timestamp
    · rw [insertByTs_cons_of_le hxy]
      by_cases hpx : p x
      · have hfront : insertByTs x (List.filter p (y :: t)) =
            x :: List.filter p (y :: t) := by
          apply insertByTs_front
          intro z hz
          have hz' := (List.mem_filter.mp hz).1
          rcases List.mem_cons.mp hz' with rfl | hz''
          · exact hxy
          · exact le_trans (hy z hz'') hxy
        rw [if_pos hpx, hfront, List.filter_cons, if_pos hpx]
      · rw [if_neg hpx, List.filter_cons, if_neg hpx]
    · rw [insertByTs_cons_of_gt hxy, List.filter_cons, ih ht]
      by_cases hpy : p y <;> by_cases hpx : p x
      · rw [if_pos hpy, if_pos hpx, if_pos hpx, List.filter_cons, if_pos hpy,
          insertByTs_cons_of_gt hxy]
      · rw [if_pos hpy, if_neg hpx, if_neg hpx, List.filter_cons, if_pos hpy]
      · rw [if_neg hpy, if_pos hpx, if_pos hpx, List.filter_cons, if_neg hpy]
      · rw [if_neg hpy, if_neg hpx, if_neg hpx, List.filter_cons, if_neg hpy]

/-- `filter` commutes with the timestamp sort. -/
theorem filter_sortByTsDesc (p : Note → Bool) (l : List Note) :
    (sortByTsDesc l).filter p = sortByTsDesc (l.filter p) := by
  induction l with
  | nil => rfl
  | cons x t ih =>
    show (insertByTs x (sortByTsDesc t)).filter p = _
    rw [filter_insertByTs p (sortedTs_sortByTsDesc t), List.filter_cons]
    by_cases hpx : p x
    · rw [if_pos hpx, if_pos hpx, ih]
      rfl
    · rw [if_neg hpx, if_neg hpx, ih]

/-- `encryptNoteFields` keeps the timestamp, so it commutes with
insertion. -/
theorem insertByTs_map_enc (k : Key) (x : Note) (l : List Note) :
    insertByTs (encryptNoteFields k x) (l.map (encryptNoteFields k)) =
      (insertByTs x l).map (encryptNoteFields k) := by
  induction l with
  | nil => rfl
  | cons y t ih =>
    show insertByTs (encryptNoteFields k x)
      (encryptNoteFields k y :: t.map (encryptNoteFields k)) = _
    unfold insertByTs
    simp only [show ∀ m : Note,
      (encryptNoteFields k m).timestamp = m.timestamp from fun m => rfl]
    by_cases h : y.timestamp ≤ x.timestamp
    · rw [if_pos h, if_pos h]
      rfl
    · rw [if_neg h, if_neg h, List.map_cons, ih]

/-- `encryptNoteFields` commutes with the timestamp sort. -/
theorem sortByTsDesc_map_enc (k : Key) (l : List Note) :
    sortByTsDesc (l.map (encryptNoteFields k)) =
      (sortByTsDesc l).map (encryptNoteFields k) := by
  induction l with
  | nil => rfl
  | cons x t ih =>
    show insertByTs (encryptNoteFields k x) (sortByTsDesc
      (t.map (encryptNoteFields k))) = _
    rw [ih, insertByTs_map_enc]
    rfl

/-! ## C4: the two search paths -/

/-- Decrypt-after-encrypt at the row level: `getNotes`'s field decryption
undoes `encryptNoteFields` exactly. -/
theorem decNote_encNote (ps : DBState) (k : Key) (m : Note) :
    ({ encryptNoteFields k m with
       content := decrypt (encryptStore ps k) (encryptNoteFields k m).content,
       source := decrypt (encryptStore ps k)
         (jsOr (encryptNoteFields k m).source (Val.plain "")),
       url := decrypt (encryptStore ps k)
         (jsOr (encryptNoteFields k m).url (Val.plain "")) }) = m := by
  cases m
  simp [encryptNoteFields, encryptStore, decrypt, jsOr, valFalsy]

/-- On the encrypted twin of a plaintext store with at most 1000 non-deleted
notes, the `getNotes(1000, 0)` materialization recovers exactly the sorted
non-deleted plaintext rows. -/
theorem getNotes_encryptStore (ps : DBState) (k : Key)
    (hinit : ps.isInitialized = true)
    (hcount : (ps.notes.filter (fun n => !n.is_deleted)).length ≤ 1000) :
    getNotes (encryptStore ps k) 1000 0 =
      Except.ok (sortByTsDesc (ps.notes.filter (fun n => !n.is_deleted))) := by
  have hi : (encryptStore ps k).isInitialized = true := hinit
  have he : (encryptStore ps k).isEncryptionEnabled = true := rfl
  unfold getNotes
  simp only [hi, Bool.not_true, Bool.false_eq_true, if_false, he, if_true,
    List.drop_zero]
  have hn : (encryptStore ps k).notes = ps.notes.map (encryptNoteFields k) :=
    rfl
  rw [hn, List.filter_map]
  have hpd : ((fun n : Note => !n.is_deleted) ∘ encryptNoteFields k) =
      (fun n : Note => !n.is_deleted) := rfl
  rw [hpd, sortByTsDesc_map_enc, ← List.map_take]
  have hlen : (sortByTsDesc (ps.notes.filter (fun n => !n.is_deleted))).length
      ≤ 1000 := by
    rw [length_sortByTsDesc]
    exact hcount
  rw [List.take_of_length_le hlen, List.map_map]
  exact congrArg Except.ok
    (list_map_id_of_mem (fun a _ => decNote_encNote ps k a))

/-- **C4 (amended).** Over the same logical store — a plaintext store and
its encrypted twin — the two `searchNotes` code paths return identical
result lists (same rows, same timestamp-descending order, same
limit/offset window), *provided* the query contains no SQL `LIKE`
metacharacter (`%` or `_`), the query and the stored content/source are
ASCII (JavaScript's `toLowerCase` folds full Unicode while SQLite's `LIKE`
folds ASCII only, so the paths diverge on non-ASCII case pairs — see the
counterexample), and the store holds at most 1000 non-deleted notes (the
encrypted path materializes only `getNotes(1000, 0)`). -/
theorem searchNotes_paths_agree (ps : DBState) (k : Key) (q : String)
    (limit offset : Nat)
    (hinit : ps.isInitialized = true)
    (hune : ps.isEncryptionEnabled = false)
    (hplain : ∀ n ∈ ps.notes,
      plainAscii n.content = true ∧ plainAscii n.source = true)
    (hcount : (ps.notes.filter (fun n => !n.is_deleted)).length ≤ 1000)
    (hq : ∀ c ∈ q.data, c ≠ '%' ∧ c ≠ '_')
    (hqa : q.data.all asciiChar = true) :
    searchNotes (encryptStore ps k) q limit offset =
      searchNotes ps q limit offset := by
  have hG := getNotes_encryptStore ps k hinit hcount
  have hi : (encryptStore ps k).isInitialized = true := hinit
  have he : (encryptStore ps k).isEncryptionEnabled = true := rfl
  have hL : searchNotes (encryptStore ps k) q limit offset =
      Except.ok ((((sortByTsDesc (ps.notes.filter (fun n =>
        !n.is_deleted))).filter
          (noteMatches (q.data.map jsToLower))).drop offset).take limit) := by
    unfold searchNotes
    simp only [hi, Bool.not_true, Bool.false_eq_true, if_false, he, if_true]
    rw [hG]
  have hR : searchNotes ps q limit offset =
      Except.ok (((sortByTsDesc (ps.notes.filter (fun n =>
        (sqlLikeVal (sqlLikePat q) n.content ||
          sqlLikeVal (sqlLikePat q) n.source) &&
          !n.is_deleted))).drop offset).take limit) := by
    unfold searchNotes
    simp only [hinit, hune, Bool.not_true, Bool.false_eq_true, if_false]
  rw [hL, hR]
  have h1 : ps.notes.filter (fun n =>
      (sqlLikeVal (sqlLikePat q) n.content ||
        sqlLikeVal (sqlLikePat q) n.source) && !n.is_deleted) =
      (ps.notes.filter (fun n => !n.is_deleted)).filter (fun n =>
        sqlLikeVal (sqlLikePat q) n.content ||
          sqlLikeVal (sqlLikePat q) n.source) := by
    rw [List.filter_filter]
  have h3 : sortByTsDesc ((ps.notes.filter (fun n =>
      !n.is_deleted)).filter (fun n =>
        sqlLikeVal (sqlLikePat q) n.content ||
          sqlLikeVal (sqlLikePat q) n.source)) =
      (sortByTsDesc (ps.notes.filter (fun n => !n.is_deleted))).filter
        (fun n => sqlLikeVal (sqlLikePat q) n.content ||
          sqlLikeVal (sqlLikePat q) n.source) :=
    (filter_sortByTsDesc _ _).symm
  have h2 : (sortByTsDesc (ps.notes.filter (fun n =>
      !n.is_deleted))).filter (noteMatches (q.data.map jsToLower)) =
      (sortByTsDesc (ps.notes.filter (fun n => !n.is_deleted))).filter
        (fun n => sqlLikeVal (sqlLikePat q) n.content ||
          sqlLikeVal (sqlLikePat q) n.source) := by
    apply List.filter_congr
    intro n hn
    have hn' : n ∈ ps.notes :=
      (List.mem_filter.mp (mem_sortByTsDesc.mp hn)).1
    obtain ⟨hcont, hsrc⟩ := hplain n hn'
    obtain ⟨c, hc, hca⟩ : ∃ c, n.content = Val.plain c ∧
        c.data.all asciiChar = true := by
      cases hv : n.content with
      | plain t =>
        rw [hv] at hcont
        exact ⟨t, rfl, hcont⟩
      | enc d k' => rw [hv] at hcont; exact absurd hcont (by simp [plainAscii])
    obtain ⟨s, hs, hsa⟩ : ∃ s, n.source = Val.plain s ∧
        s.data.all asciiChar = true := by
      cases hv : n.source with
      | plain t =>
        rw [hv] at hsrc
        exact ⟨t, rfl, hsrc⟩
      | enc d k' => rw [hv] at hsrc; exact absurd hsrc (by simp [plainAscii])
    exact row_match_eq q hq hqa n c s hc hs hca hsa
  rw [h1, h3, h2]

/-- Witness for C4 at `exHello` with the wildcard-free query `"ELL"`. -/
theorem searchNotes_paths_agree_witness :
    searchNotes (encryptStore exHello exKey) "ELL" 50 0 =
      searchNotes exHello "ELL" 50 0 :=
  searchNotes_paths_agree exHello exKey "ELL" 50 0 rfl rfl (by decide)
    (by decide) (by decide) (by decide)

/-- **C4 counterexample.** Two concrete inputs on which the claimed path
identity fails.  Over the one-note store with content `"axb"`, the query
`"a_b"` matches on the SQL `LIKE` path (`_` is a wildcard) but not on the
encrypted in-memory path (JS `includes` is literal).  Over the one-note
store with Latin-1 content `"\u00e4"`, the query `"\u00c4"` matches on the
encrypted path (JavaScript lower-cases `\u00c4` to `\u00e4`) but not on
the SQL path (`LIKE` folds ASCII only).  Each pair forces one proviso of
the amended claim. -/
theorem searchNotes_paths_differ_cex :
    (okLength (searchNotes (encryptStore exWild exKey) "a_b" 50 0) = 0 ∧
      okLength (searchNotes exWild "a_b" 50 0) = 1) ∧
    (okLength (searchNotes (encryptStore exUni exKey) "\u00c4" 50 0) = 1 ∧
      okLength (searchNotes exUni "\u00c4" 50 0) = 0) := by
  decide

/-! ## C9: the 1000-newest cap of encrypted search -/

/-- With encryption enabled, `getNotes(1000, 0)` materializes exactly
`decTop1000`. -/
theorem getNotes_1000_eq_decTop1000 (st : DBState)
    (hinit : st.isInitialized = true)
    (henc : st.isEncryptionEnabled = true) :
    getNotes st 1000 0 = Except.ok (decTop1000 st) := by
  unfold getNotes decTop1000
  simp only [hinit, Bool.not_true, Bool.false_eq_true, if_false, henc,
    if_true, List.drop_zero]

/-- With encryption enabled, `searchNotes` filters and windows the
`decTop1000` materialization. -/
theorem searchNotes_enc_eq (st : DBState) (q : String)
    (hinit : st.isInitialized = true)
    (henc : st.isEncryptionEnabled = true) (limit offset : Nat) :
    searchNotes st q limit offset = Except.ok
      ((((decTop1000 st).filter
        (noteMatches (q.data.map jsToLower))).drop offset).take limit) := by
  unfold searchNotes
  simp only [hinit, Bool.not_true, Bool.false_eq_true, if_false, henc,
    if_true]
  rw [getNotes_1000_eq_decTop1000 st hinit henc]

/-- **C9.** When encryption is enabled, `searchNotes` and `getSearchCount`
only ever examine the 1000 newest non-deleted notes: every note a search
returns comes from the decrypted top-1000 materialization (so a matching
note outside it is never returned), the count equals the number of matching
notes *within* that materialization (so notes outside it are never
counted), and the count never exceeds 1000. -/
theorem encrypted_search_capped (st : DBState) (q : String)
    (limit offset : Nat)
    (hinit : st.isInitialized = true)
    (henc : st.isEncryptionEnabled = true) :
    (∀ res, searchNotes st q limit offset = Except.ok res →
      ∀ n ∈ res, n ∈ decTop1000 st) ∧
    (∀ c, getSearchCount st q = Except.ok c →
      c = ((decTop1000 st).filter
        (noteMatches (q.data.map jsToLower))).length ∧ c ≤ 1000) := by
  have htoplen : (decTop1000 st).length ≤ 1000 := by
    unfold decTop1000
    rw [List.length_map, List.length_take]
    exact min_le_left _ _
  have hflen : ((decTop1000 st).filter
      (noteMatches (q.data.map jsToLower))).length ≤ 1000 :=
    le_trans (List.length_filter_le _ _) htoplen
  constructor
  · intro res hres n hn
    rw [searchNotes_enc_eq st q hinit henc limit offset] at hres
    injection hres with h
    subst h
    have h1 : n ∈ (decTop1000 st).filter
        (noteMatches (q.data.map jsToLower)) :=
      List.drop_subset _ _ (List.take_subset _ _ hn)
    exact (List.mem_filter.mp h1).1
  · intro c hc
    unfold getSearchCount at hc
    simp only [hinit, Bool.not_true, Bool.false_eq_true, if_false, henc,
      if_true] at hc
    rw [searchNotes_enc_eq st q hinit henc 1000 0] at hc
    rw [List.drop_zero, List.take_of_length_le hflen] at hc
    injection hc with h
    exact ⟨h.symm, h ▸ hflen⟩

/-- Witness for C9 on the encrypted one-note store: the count for `"ell"`
is the number of matches inside the top-1000 materialization. -/
theorem encrypted_search_capped_witness :
    1 = (((decTop1000 (encryptStore exHello exKey)).filter
      (noteMatches ("ell".data.map jsToLower))).length) ∧ 1 ≤ 1000 :=
  (encrypted_search_capped (encryptStore exHello exKey) "ell" 50 0 rfl
    rfl).2 1 (by rfl)

/-! ## C2: the versioning invariant -/

/-- `maxVer` of a snoc. -/
theorem maxVer_append_single (l : List NoteVersion) (r : NoteVersion) :
    maxVer (l ++ [r]) = max (maxVer l) r.version := by
  induction l with
  | nil =>
    show max r.version 0 = max 0 r.version
    omega
  | cons a t ih =>
    show max a.version (maxVer (t ++ [r])) = _
    rw [ih]
    show _ = max (max a.version (maxVer t)) r.version
    omega

/-- `histOf` after `addVersionRow`: the new row joins exactly the target
note's history. -/
theorem histOf_addVersionRow (st : DBState) (tid : Nat) (c s u : Val)
    (ver : Nat) (ct : String) (i : Nat) :
    histOf (addVersionRow st tid c s u ver ct) i =
      histOf st i ++ (if tid = i then
        [{ id := st.nextVersionId, note_id := tid, content := c, source := s,
           url := u, version := ver, change_type := ct }] else []) := by
  unfold histOf addVersionRow
  rw [List.filter_append]
  congr 1
  by_cases h : tid = i
  · rw [if_pos h]
    rw [List.filter_cons]
    rw [if_pos (by simpa using h)]
    rfl
  · rw [if_neg h]
    rw [List.filter_cons]
    rw [if_neg (by simpa using h)]
    rfl

/-- `histOf` ignores the `notes` side of the state. -/
theorem histOf_set_notes (st : DBState) (l : List Note) (i : Nat) :
    histOf { st with notes := l } i = histOf st i := rfl

/-- Two members of a duplicate-free-by-id list having the same id are the
same element. -/
theorem eq_of_mem_same_id {l : List Note}
    (hl : l.Pairwise (fun a b => a.id ≠ b.id))
    {a b : Note} (ha : a ∈ l) (hb : b ∈ l) (h : a.id = b.id) : a = b := by
  by_contra hne
  exact List.Pairwise.forall (by intro x y hxy; exact hxy.symm) hl ha hb hne h

/-- The structural invariant holds in a fresh store. -/
theorem storeInv_initState (enabled : Bool) (key : Option Key)
    (kf : Option KeyInfo) : StoreInv (initState enabled key kf) := by
  refine ⟨?_, ?_, ?_, ?_⟩
  · intro x hx; cases hx
  · intro x hx; cases hx
  · exact List.Pairwise.nil
  · intro x hx; cases hx

/-- The shared shape of `updateNote` and `restoreNoteVersion`: rewrite the
uniquely-identified target row with a field update that bumps its version to
one past the target's, and append the matching history row.  The structural
invariant is preserved. -/
theorem storeInv_bump (st : DBState) (tid : Nat) (n₀ : Note)
    (upd : Note → Note) (c3 s3 u3 : Val) (ct : String)
    (hinv : StoreInv st) (hmem : n₀ ∈ st.notes) (hid : n₀.id = tid)
    (hu1 : ∀ m, (upd m).id = m.id)
    (hu2 : ∀ m, (upd m).is_deleted = m.is_deleted)
    (hu3 : ∀ m, (upd m).version = n₀.version + 1) :
    StoreInv (addVersionRow { st with notes := st.notes.map (fun m =>
      if m.id == tid then upd m else m) } tid c3 s3 u3 (n₀.version + 1) ct) := by
  obtain ⟨h1, h2, h3, h4⟩ := hinv
  have htid : tid < st.nextNoteId := hid ▸ h1 n₀ hmem
  have hgid : ∀ m : Note,
      (Note.id (if m.id == tid then upd m else m)) = m.id := by
    intro m
    by_cases h : (m.id == tid) = true
    · rw [if_pos h]; exact hu1 m
    · rw [if_neg h]
  refine ⟨?_, ?_, ?_, ?_⟩
  · intro n hn
    obtain ⟨m, hm, rfl⟩ := List.mem_map.mp hn
    rw [hgid m]
    exact h1 m hm
  · intro v hv
    rcases List.mem_append.mp hv with hv1 | hv2
    · exact h2 v hv1
    · rw [List.mem_singleton.mp hv2]
      exact htid
  · exact List.pairwise_map.mpr
      (h3.imp (fun hab => by rw [hgid, hgid]; exact hab))
  · intro n hn
    obtain ⟨m, hm, rfl⟩ := List.mem_map.mp hn
    intro hdel
    by_cases hmT : (m.id == tid) = true
    · have hmeq : m = n₀ := by
        apply eq_of_mem_same_id h3 hm hmem
        rw [hid]
        exact (by simpa using hmT)
      subst hmeq
      rw [if_pos hmT] at hdel ⊢
      rw [hu1 m, hu3 m, hid]
      have hdel0 : m.is_deleted = false := by rw [← hu2 m]; exact hdel
      have h4m := h4 m hm hdel0
      rw [hid] at h4m
      rw [histOf_addVersionRow, histOf_set_notes, if_pos rfl,
        List.length_append, maxVer_append_single]
      refine ⟨?_, ?_⟩
      · show (histOf st tid).length + 1 = m.version + 1
        have := h4m.1
        omega
      · show max (maxVer (histOf st tid)) (m.version + 1) = m.version + 1
        have := h4m.2
        omega
    · rw [if_neg hmT] at hdel ⊢
      have hne : tid ≠ m.id := by
        intro hcon
        exact hmT (by simp [hcon])
      rw [histOf_addVersionRow, histOf_set_notes, if_neg hne,
        List.append_nil]
      exact h4 m hm hdel

/-- `histOf` only reads the `note_versions` table. -/
theorem histOf_congr (st st' : DBState)
    (h : st.note_versions = st'.note_versions) (i : Nat) :
    histOf st i = histOf st' i := by
  unfold histOf
  rw [h]

/-- `histOf` unfolded. -/
theorem histOf_eq_filter (st : DBState) (i : Nat) :
    histOf st i = st.note_versions.filter (fun v => v.note_id == i) := rfl

/-- `histOf` on an explicit state literal. -/
theorem histOf_mk (ii ie : Bool) (ek : Option Key) (kf : Option KeyInfo)
    (ns : List Note) (nv : List NoteVersion) (ni nvi i : Nat) :
    histOf { isInitialized := ii, isEncryptionEnabled := ie,
             encryptionKey := ek, keyFile := kf, notes := ns,
             note_versions := nv, nextNoteId := ni,
             nextVersionId := nvi } i =
      nv.filter (fun v => v.note_id == i) := rfl

/-- `addNote` preserves the structural invariant. -/
theorem storeInv_addNote (st : DBState) (inp : NoteInput) (h : StoreInv st) :
    StoreInv (addNote st inp false).1 := by
  obtain ⟨h1, h2, h3, h4⟩ := h
  cases hinit : st.isInitialized with
  | false =>
    unfold addNote
    simp only [hinit, Bool.not_false, if_true]
    exact ⟨h1, h2, h3, h4⟩
  | true =>
    unfold addNote
    simp only [hinit, Bool.not_true, Bool.false_eq_true, if_false]
    refine ⟨?_, ?_, ?_, ?_⟩
    · intro n hn
      rcases List.mem_append.mp hn with ho | hs
      · exact Nat.lt_succ_of_lt (h1 n ho)
      · rw [List.mem_singleton.mp hs]
        exact Nat.lt_succ_self _
    · intro v hv
      rcases List.mem_append.mp hv with ho | hs
      · exact Nat.lt_succ_of_lt (h2 v ho)
      · rw [List.mem_singleton.mp hs]
        exact Nat.lt_succ_self _
    · refine List.pairwise_append.mpr ⟨h3, List.pairwise_singleton _ _, ?_⟩
      intro a ha b hb
      rw [List.mem_singleton.mp hb]
      exact Nat.ne_of_lt (h1 a ha)
    · intro n hn hdel
      rcases List.mem_append.mp hn with ho | hs
      · rw [histOf_addVersionRow, histOf_mk, ← histOf_eq_filter]
        have hne : st.nextNoteId ≠ n.id := Nat.ne_of_gt (h1 n ho)
        rw [if_neg hne, List.append_nil]
        exact h4 n ho hdel
      · have hns := List.mem_singleton.mp hs
        subst hns
        rw [histOf_addVersionRow, histOf_mk, ← histOf_eq_filter]
        rw [if_pos rfl]
        have hnil : histOf st st.nextNoteId = [] := by
          rw [histOf_eq_filter, List.filter_eq_nil_iff]
          intro w hw
          have := h2 w hw
          rw [beq_iff_eq]
          omega
        rw [hnil, List.nil_append]
        exact ⟨rfl, rfl⟩

/-- `updateNote` preserves the structural invariant. -/
theorem storeInv_updateNote (st : DBState) (i : Nat) (content : String)
    (h : StoreInv st) : StoreInv (updateNote st i content).1 := by
  by_cases hinit : st.isInitialized = true
  case neg =>
    unfold updateNote
    rw [if_pos (by simp [Bool.not_eq_true'] at hinit ⊢; exact hinit)]
    exact h
  case pos =>
    unfold updateNote
    rw [if_neg (by simp [hinit])]
    cases hf : st.notes.find? (fun n => n.id == i && !n.is_deleted) with
    | none => exact h
    | some n₀ =>
      have hmem := List.mem_of_find?_eq_some hf
      have hp := List.find?_some hf
      rw [Bool.and_eq_true] at hp
      have hid : n₀.id = i := by simpa using hp.1
      exact storeInv_bump st i n₀
        (fun m => { m with
          content := encrypt st (Val.plain content),
          version := n₀.version + 1 })
        (encrypt st (Val.plain content)) n₀.source n₀.url "update"
        h hmem hid (fun m => rfl) (fun m => rfl) (fun m => rfl)

/-- `restoreNoteVersion` preserves the structural invariant. -/
theorem storeInv_restoreNote (st : DBState) (i v : Nat) (h : StoreInv st) :
    StoreInv (restoreNoteVersion st i v).1 := by
  by_cases hinit : st.isInitialized = true
  case neg =>
    unfold restoreNoteVersion
    rw [if_pos (by simp [Bool.not_eq_true'] at hinit ⊢; exact hinit)]
    exact h
  case pos =>
    unfold restoreNoteVersion
    rw [if_neg (by simp [hinit])]
    cases hfv : st.note_versions.find? (fun w =>
        w.note_id == i && w.version == v) with
    | none => exact h
    | some versionData =>
      cases hf : st.notes.find? (fun n => n.id == i) with
      | none => exact h
      | some currentNote =>
        have hmem := List.mem_of_find?_eq_some hf
        have hp := List.find?_some hf
        have hid : currentNote.id = i := by simpa using hp
        exact storeInv_bump st i currentNote
          (fun m => { m with
            content := versionData.content,
            source := versionData.source,
            url := versionData.url,
            version := currentNote.version + 1 })
          versionData.content versionData.source versionData.url
          ("restore_v" ++ toString v)
          h hmem hid (fun m => rfl) (fun m => rfl) (fun m => rfl)

/-- `deleteNote` preserves the structural invariant. -/
theorem storeInv_deleteNote (st : DBState) (i : Nat) (h : StoreInv st) :
    StoreInv (deleteNote st i).1 := by
  obtain ⟨h1, h2, h3, h4⟩ := h
  cases hinit : st.isInitialized with
  | false =>
    unfold deleteNote
    simp only [hinit, Bool.not_false, if_true]
    exact ⟨h1, h2, h3, h4⟩
  | true =>
    unfold deleteNote
    simp only [hinit, Bool.not_true, Bool.false_eq_true, if_false]
    cases hany : st.notes.any (fun n => n.id == i) with
    | false =>
      simp only [hany, Bool.false_eq_true, if_false]
      exact ⟨h1, h2, h3, h4⟩
    | true =>
      simp only [hany, if_true]
      have hgid : ∀ m : Note,
          (Note.id (if m.id == i then { m with is_deleted := true } else m))
            = m.id := by
        intro m
        by_cases hb : (m.id == i) = true
        · rw [if_pos hb]
        · rw [if_neg hb]
      have hA : ∀ n ∈ st.notes.map (fun m =>
          if m.id == i then { m with is_deleted := true } else m),
          n.id < st.nextNoteId := by
        intro n hn
        obtain ⟨m, hm, rfl⟩ := List.mem_map.mp hn
        rw [hgid m]
        exact h1 m hm
      have hC : List.Pairwise (fun a b => a.id ≠ b.id)
          (st.notes.map (fun m =>
            if m.id == i then { m with is_deleted := true } else m)) :=
        List.pairwise_map.mpr
          (h3.imp (fun hab => by rw [hgid, hgid]; exact hab))
      have hD0 : ∀ n ∈ st.notes.map (fun m =>
          if m.id == i then { m with is_deleted := true } else m),
          n.is_deleted = false →
          (histOf st n.id).length = n.version ∧
            maxVer (histOf st n.id) = n.version ∧ n.id ≠ i := by
        intro n hn hdel
        obtain ⟨m, hm, rfl⟩ := List.mem_map.mp hn
        by_cases hb : (m.id == i) = true
        · rw [if_pos hb] at hdel
          exact absurd hdel (by simp)
        · rw [if_neg hb] at hdel ⊢
          have hne : m.id ≠ i := by simpa using hb
          exact ⟨(h4 m hm hdel).1, (h4 m hm hdel).2, hne⟩
      cases hfv : (st.notes.map (fun m =>
          if m.id == i then { m with is_deleted := true } else m)).find?
          (fun n => n.id == i) with
      | none =>
        simp only [hfv]
        refine ⟨hA, h2, hC, ?_⟩
        intro n hn hdel
        have hd := hD0 n hn hdel
        exact ⟨hd.1, hd.2.1⟩
      | some note =>
        simp only [hfv]
        have hnotei : note.id = i := by simpa using List.find?_some hfv
        have hilt : i < st.nextNoteId := by
          have hmem := List.mem_of_find?_eq_some hfv
          have := hA note hmem
          rw [hnotei] at this
          exact this
        refine ⟨hA, ?_, hC, ?_⟩
        · intro w hw
          rcases List.mem_append.mp hw with ho | hs
          · exact h2 w ho
          · rw [List.mem_singleton.mp hs]
            exact hilt
        · intro n hn hdel
          have hd := hD0 n hn hdel
          rw [histOf_addVersionRow, histOf_mk, ← histOf_eq_filter]
          rw [if_neg (fun hcon => hd.2.2 hcon.symm), List.append_nil]
          exact ⟨hd.1, hd.2.1⟩

/-- Every operation preserves the structural invariant. -/
theorem storeInv_applyOp (st : DBState) (op : Op) (h : StoreInv st) :
    StoreInv (applyOp st op) := by
  cases op with
  | add c s u t => exact storeInv_addNote st ⟨c, s, u, t⟩ h
  | update i c => exact storeInv_updateNote st i c h
  | del i => exact storeInv_deleteNote st i h
  | restore i v => exact storeInv_restoreNote st i v h

/-- Whole sequences of operations preserve the structural invariant. -/
theorem storeInv_runOps (ops : List Op) :
    ∀ st, StoreInv st → StoreInv (runOps st ops) := by
  induction ops with
  | nil => intro st h; exact h
  | cons op t ih => intro st h; exact ih _ (storeInv_applyOp st op h)

/-- **C2 (amended).** In every store state reachable by a sequence of
(non-faulting) store operations, every *non-soft-deleted* note's `version`
column equals both the highest `version` among its `note_versions` rows and
the number of those rows (so after N successful `updateNote` /
`restoreNoteVersion` operations on a note created by `addNote`, its version
is N+1 with exactly N+1 history rows).  The restriction to non-deleted
notes is forced: `deleteNote` appends a `delete` history row with
`version = version + 1` but never updates the notes row's `version` column,
so the equality fails for every soft-deleted note (see the
counterexample). -/
theorem version_hist_invariant (st : DBState) (hst : Reachable st) :
    ∀ n ∈ st.notes, n.is_deleted = false →
      (histOf st n.id).length = n.version ∧
        maxVer (histOf st n.id) = n.version := by
  obtain ⟨en, key, kf, ops, rfl⟩ := hst
  exact (storeInv_runOps ops _ (storeInv_initState en key kf)).2.2.2

/-- Witness for C2: the invariant instantiated on a freshly added note. -/
theorem version_hist_invariant_witness :
    (histOf exPlain1 1).length = 1 ∧ maxVer (histOf exPlain1 1) = 1 :=
  version_hist_invariant exPlain1
    ⟨false, none, none,
      [Op.add "Buy milk" "Safari" "https://example.com" 5], rfl⟩
    { id := 1, content := Val.plain "Buy milk", source := Val.plain "Safari",
      url := Val.plain "https://example.com", timestamp := 5, version := 1,
      is_deleted := false, is_sensitive := false }
    (by decide) rfl

/-- **C2 counterexample.** After `addNote` followed by `deleteNote(1)` —
a reachable state — the notes row still has `version = 1` while its history
holds 2 rows with highest version 2: the claimed invariant fails for the
(soft-deleted) note. -/
theorem version_hist_invariant_cex :
    exPlain2 = runOps (initState false none none)
      [Op.add "Buy milk" "Safari" "https://example.com" 5, Op.del 1] ∧
    ¬(∀ n ∈ exPlain2.notes,
        n.version = maxVer (histOf exPlain2 n.id)) ∧
    (∃ n ∈ exPlain2.notes, n.version = 1 ∧
      maxVer (histOf exPlain2 n.id) = 2 ∧
      (histOf exPlain2 n.id).length = 2) := by
  exact ⟨rfl, by decide, by decide⟩
